import Mathlib

/-!
Shallow embedding of `src/simple-vector/simple_vector.h`, a generic dynamic
array `SimpleVector<Type>` built on an external raw-buffer owner `ArrayPtr`.

The container state is the triple of its three data members: `size_`,
`capacity_`, and the contents of the storage block `items_` (a list of
`capacity_` slots in well-formed states).  Iterator arguments (`Iterator` is
`Type*`) are modelled as indices measured from `begin()`, exactly as the
source computes them via `std::distance(items_.Get(), pos)`.  Throwing
(`std::out_of_range`) is modelled with `Except String`.  `std::move` on an
element is modelled as a copy (as for trivially copyable element types);
moved-from slots therefore retain their previous value.
-/

set_option maxHeartbeats 1000000
set_option linter.unusedSectionVars false

/-- State of `SimpleVector<Type>`: data members `size_`, `capacity_` and the
contents of the `ArrayPtr<Type> items_` storage block. -/
structure SimpleVector (α : Type) where
  size_ : Nat
  capacity_ : Nat
  items_ : List α
deriving DecidableEq

namespace SimpleVector

variable {α : Type} [Inhabited α]

/-- Modelled from the spec: the raw buffer owner `ArrayPtr` (its header
`array_ptr.h` is not among the sources) must "allocate a block of N
default-valued slots". -/
def allocate (n : Nat) : List α := List.replicate n default

/-- Default constructor `SimpleVector() noexcept`: size 0, capacity 0, no storage. -/
def emptyVec : SimpleVector α := ⟨0, 0, []⟩

/-- Constructor `SimpleVector(size, value)`: `size_ = capacity_ = size`, the
allocated block filled with `value` by `std::fill`. -/
def mkFill (n : Nat) (value : α) : SimpleVector α := ⟨n, n, List.replicate n value⟩

/-- Constructor `SimpleVector(size)`: delegates to `SimpleVector(size, Type{})`. -/
def mkSize (n : Nat) : SimpleVector α := mkFill n default

/-- Constructor `SimpleVector(std::initializer_list)`: `size_ = capacity_ =
init.size()`, the elements copied over in list order. -/
def mkList (l : List α) : SimpleVector α := ⟨l.length, l.length, l⟩

/-- `Reserve(new_capacity)`: when `new_capacity > capacity_`, allocate a block
of `new_capacity` slots, `std::move` the first `size_` elements into it,
`std::generate` defaults over `[size_, new_capacity)`, swap it in and update
`capacity_`; otherwise do nothing. -/
def Reserve (v : SimpleVector α) (new_capacity : Nat) : SimpleVector α :=
  if v.capacity_ < new_capacity then
    ⟨v.size_, new_capacity,
      v.items_.take v.size_ ++ List.replicate (new_capacity - v.size_) default⟩
  else v

/-- Constructor `SimpleVector(ReserveProxyObj obj)`: default-initialized members,
then `Reserve(obj.GetSize())`. -/
def mkReserveHint (n : Nat) : SimpleVector α := Reserve emptyVec n

/-- `GetSize() const noexcept`. -/
def GetSize (v : SimpleVector α) : Nat := v.size_

/-- `GetCapacity() const noexcept`. -/
def GetCapacity (v : SimpleVector α) : Nat := v.capacity_

/-- `IsEmpty() const noexcept`: `size_ == 0`. -/
def IsEmpty (v : SimpleVector α) : Bool := v.size_ == 0

/-- Unchecked `operator[]`: the value stored in slot `index` (the caller
guarantees `index < size_`). -/
def get (v : SimpleVector α) (index : Nat) : α := v.items_.getD index default

/-- `At(index)`: throws `std::out_of_range("Out of range")` when
`index >= size_`, otherwise returns `items_[index]`. -/
def At (v : SimpleVector α) (index : Nat) : Except String α :=
  if index ≥ v.size_ then Except.error "Out of range" else Except.ok (v.get index)

/-- `Clear() noexcept`: `size_ = 0`; capacity and storage untouched. -/
def Clear (v : SimpleVector α) : SimpleVector α := ⟨0, v.capacity_, v.items_⟩

/-- `Resize(new_size)`: no-op when equal to `size_`; default-fill
`[size_, new_size)` when growing within capacity; `Reserve(max(new_size,
capacity_ * 2))` when growing beyond capacity; in every non-returning branch
finally `size_ = new_size`. -/
def Resize (v : SimpleVector α) (new_size : Nat) : SimpleVector α :=
  if v.size_ = new_size then v
  else if new_size ≤ v.capacity_ ∧ v.size_ < new_size then
    ⟨new_size, v.capacity_,
      v.items_.take v.size_ ++ List.replicate (new_size - v.size_) default
        ++ v.items_.drop new_size⟩
  else if v.capacity_ < new_size then
    { Reserve v (max new_size (v.capacity_ * 2)) with size_ := new_size }
  else ⟨new_size, v.capacity_, v.items_⟩

/-- `PushBack(item)`: when `size_ == capacity_`, `Reserve(size_ == 0 ? 1 :
capacity_ * 2)`; then `items_[size_] = item; ++size_`. -/
def PushBack (v : SimpleVector α) (item : α) : SimpleVector α :=
  if v.size_ = v.capacity_ then
    let r := Reserve v (if v.size_ = 0 then 1 else v.capacity_ * 2)
    ⟨r.size_ + 1, r.capacity_, r.items_.set r.size_ item⟩
  else ⟨v.size_ + 1, v.capacity_, v.items_.set v.size_ item⟩

/-- `Insert(pos, value)` with `index = std::distance(begin(), pos)`: pick the
new capacity (growth policy when full, unchanged otherwise), allocate a fresh
block, copy `[0, index)`, place `value` at `index`, `std::copy_backward` the
elements `[index, size_)` into `[index + 1, size_ + 1)`, fill
`[size_ + 1, new_capacity)` with `Type{}`, adopt the block, `++size_`. -/
def Insert (v : SimpleVector α) (index : Nat) (value : α) : SimpleVector α :=
  let new_capacity :=
    if v.size_ = v.capacity_ then (if v.size_ = 0 then 1 else v.capacity_ * 2)
    else v.capacity_
  ⟨v.size_ + 1, new_capacity,
    v.items_.take index ++ value :: (v.items_.drop index).take (v.size_ - index)
      ++ List.replicate (new_capacity - (v.size_ + 1)) default⟩

/-- `PopBack() noexcept`: `--size_` (caller guarantees non-empty). -/
def PopBack (v : SimpleVector α) : SimpleVector α := ⟨v.size_ - 1, v.capacity_, v.items_⟩

/-- `Erase(pos)` with `index = std::distance(begin(), pos)`: `std::move(pos + 1,
end(), pos)` shifts `[index + 1, size_)` down one slot in place (slot
`size_ - 1` keeps its moved-from value, modelled as unchanged), then `--size_`. -/
def Erase (v : SimpleVector α) (index : Nat) : SimpleVector α :=
  ⟨v.size_ - 1, v.capacity_,
    v.items_.take index ++ (v.items_.drop (index + 1)).take (v.size_ - 1 - index)
      ++ v.items_.drop (v.size_ - 1)⟩

/-- Member `swap(SimpleVector&) noexcept`: exchanges `items_`, `size_` and
`capacity_`; the result is (new this, new other). -/
def swap (self other : SimpleVector α) : SimpleVector α × SimpleVector α := (other, self)

/-- Copy constructor: allocate `other.capacity_` slots, `std::copy` the range
`[begin, end)` into them (skipped when empty), swap the block in and copy
`size_`/`capacity_`. -/
def copyCtor (other : SimpleVector α) : SimpleVector α :=
  ⟨other.size_, other.capacity_,
    other.items_.take other.size_ ++ List.replicate (other.capacity_ - other.size_) default⟩

/-- Move constructor: `std::exchange(other.size_, 0)`,
`std::exchange(other.capacity_, 0)`, `items_ = std::move(other.items_)`;
the result is (new object, moved-from other). -/
def moveCtor (other : SimpleVector α) : SimpleVector α × SimpleVector α :=
  (⟨other.size_, other.capacity_, other.items_⟩, ⟨0, 0, []⟩)

/-- Copy assignment `operator=(const SimpleVector& rhs)`: when `this != &rhs`
(`same = false`), build `copy_vector(rhs)` and swap with it; otherwise no-op. -/
def assignCopy (self rhs : SimpleVector α) (same : Bool) : SimpleVector α :=
  if same then self else (swap self (copyCtor rhs)).1

/-- Move assignment `operator=(SimpleVector&& rhs)`: when `this != &rhs`
(`same = false`), `swap(rhs)`; otherwise no-op. The result is
(new this, new rhs). -/
def assignMove (self rhs : SimpleVector α) (same : Bool) : SimpleVector α × SimpleVector α :=
  if same then (self, rhs) else swap self rhs

/-- The present elements, the range `[begin(), end())`: the first `size_`
slots of the storage. -/
def toList (v : SimpleVector α) : List α := v.items_.take v.size_

/-- Free `operator==`: `std::equal(lhs.begin(), lhs.end(), rhs.begin(),
rhs.end())` — the two present-element ranges are equal. -/
def operatorEq [DecidableEq α] (lhs rhs : SimpleVector α) : Bool :=
  decide (lhs.toList = rhs.toList)

/-- Free `operator!=`: `!(lhs == rhs)`. -/
def operatorNe [DecidableEq α] (lhs rhs : SimpleVector α) : Bool :=
  !(operatorEq lhs rhs)

/-- `std::lexicographical_compare` with the default `<` comparator. -/
def lexCompare [LinearOrder α] : List α → List α → Bool
  | _, [] => false
  | [], _ :: _ => true
  | a :: as, b :: bs => if a < b then true else if b < a then false else lexCompare as bs

/-- Free `operator<`: `std::lexicographical_compare` over the two
present-element ranges. -/
def operatorLt [LinearOrder α] (lhs rhs : SimpleVector α) : Bool :=
  lexCompare lhs.toList rhs.toList

/-- Free `operator<=`: `!(rhs < lhs)`. -/
def operatorLe [LinearOrder α] (lhs rhs : SimpleVector α) : Bool :=
  !(operatorLt rhs lhs)

/-- Free `operator>`: `rhs < lhs`. -/
def operatorGt [LinearOrder α] (lhs rhs : SimpleVector α) : Bool :=
  operatorLt rhs lhs

/-- Free `operator>=`: `!(lhs < rhs)`. -/
def operatorGe [LinearOrder α] (lhs rhs : SimpleVector α) : Bool :=
  !(operatorLt lhs rhs)

/-- Well-formedness of a container state: invariant I1 (`size_ ≤ capacity_`)
together with the storage block holding exactly `capacity_` slots. -/
def WF (v : SimpleVector α) : Prop :=
  v.size_ ≤ v.capacity_ ∧ v.items_.length = v.capacity_

instance (v : SimpleVector α) : Decidable (WF v) := by
  unfold WF; infer_instance

/-- A state is reachable when it is produced by a constructor or by public
mutating operations applied within their documented preconditions. -/
inductive Reachable : SimpleVector α → Prop
  | emptyVec : Reachable emptyVec
  | mkFill (n : Nat) (value : α) : Reachable (mkFill n value)
  | mkSize (n : Nat) : Reachable (mkSize n)
  | mkList (l : List α) : Reachable (mkList l)
  | mkReserveHint (n : Nat) : Reachable (mkReserveHint n)
  | copyCtor {v : SimpleVector α} : Reachable v → Reachable (copyCtor v)
  | pushBack {v : SimpleVector α} (x : α) : Reachable v → Reachable (PushBack v x)
  | popBack {v : SimpleVector α} : Reachable v → 0 < v.size_ → Reachable (PopBack v)
  | clear {v : SimpleVector α} : Reachable v → Reachable (Clear v)
  | reserve {v : SimpleVector α} (n : Nat) : Reachable v → Reachable (Reserve v n)
  | resize {v : SimpleVector α} (n : Nat) : Reachable v → Reachable (Resize v n)
  | insert {v : SimpleVector α} (i : Nat) (x : α) :
      Reachable v → i ≤ v.size_ → Reachable (Insert v i x)
  | erase {v : SimpleVector α} (i : Nat) :
      Reachable v → i < v.size_ → Reachable (Erase v i)

/-- A sequence of `PushBack` calls starting from the empty container. -/
def pushAll (l : List α) : SimpleVector α := l.foldl PushBack emptyVec

/-- The capacity after `n` pushes from empty under the growth policy of
`PushBack`: before the `n`-th push the size is `n`, and the push grows the
capacity (to 1, or to its double) exactly when `size_ == capacity_`. -/
def pushCap : Nat → Nat
  | 0 => 0
  | n + 1 => if n = pushCap n then (if n = 0 then 1 else pushCap n * 2) else pushCap n

theorem toList_length {v : SimpleVector α} (h : WF v) : v.toList.length = v.size_ := by
  obtain ⟨h1, h2⟩ := h
  simp [toList]
  omega

theorem Reserve_size (v : SimpleVector α) (n : Nat) : (Reserve v n).size_ = v.size_ := by
  unfold Reserve
  split <;> rfl

theorem Reserve_capacity (v : SimpleVector α) (n : Nat) :
    (Reserve v n).capacity_ = max v.capacity_ n := by
  unfold Reserve
  split <;> simp <;> omega

theorem Reserve_items {v : SimpleVector α} {n : Nat} (h : v.capacity_ < n) :
    (Reserve v n).items_ =
      v.items_.take v.size_ ++ List.replicate (n - v.size_) default := by
  unfold Reserve
  rw [if_pos h]

theorem Reserve_eq_self {v : SimpleVector α} {n : Nat} (h : n ≤ v.capacity_) :
    Reserve v n = v := by
  unfold Reserve
  rw [if_neg (by omega)]

theorem Reserve_WF {v : SimpleVector α} {n : Nat} (h : WF v) : WF (Reserve v n) := by
  obtain ⟨h1, h2⟩ := h
  unfold Reserve
  split
  · next hlt =>
    constructor
    · show v.size_ ≤ n
      omega
    · show (v.items_.take v.size_ ++ List.replicate (n - v.size_) default).length = n
      simp
      omega
  · exact ⟨h1, h2⟩

theorem Reserve_toList {v : SimpleVector α} {n : Nat} (h : WF v) :
    (Reserve v n).toList = v.toList := by
  obtain ⟨h1, h2⟩ := h
  unfold Reserve
  split
  · next hlt =>
    show (v.items_.take v.size_ ++ _).take v.size_ = v.toList
    rw [List.take_append_of_le_length (by simp; omega), List.take_take]
    simp [toList]
  · rfl

theorem Reserve_drop {v : SimpleVector α} {n : Nat} (h : WF v) (hn : v.capacity_ < n) :
    (Reserve v n).items_.drop v.size_ = List.replicate (n - v.size_) default := by
  obtain ⟨h1, h2⟩ := h
  rw [Reserve_items hn, List.drop_left' (by simp; omega)]

theorem take_set_succ (l : List α) (n : Nat) (x : α) (h : n < l.length) :
    (l.set n x).take (n + 1) = l.take n ++ [x] := by
  rw [List.set_eq_take_cons_drop x h, List.take_append_eq_append_take]
  have hlen : (l.take n).length = n := by simp; omega
  rw [List.take_take, hlen]
  have : n + 1 - n = 1 := by omega
  rw [this]
  simp [Nat.min_comm]

theorem growPolicy_lt (v : SimpleVector α) :
    v.capacity_ = v.size_ → v.capacity_ < (if v.size_ = 0 then 1 else v.capacity_ * 2) := by
  intro h
  split <;> omega

theorem PushBack_eq_of_full {v : SimpleVector α} (x : α) (heq : v.size_ = v.capacity_) :
    PushBack v x =
      ⟨(Reserve v (if v.size_ = 0 then 1 else v.capacity_ * 2)).size_ + 1,
       (Reserve v (if v.size_ = 0 then 1 else v.capacity_ * 2)).capacity_,
       (Reserve v (if v.size_ = 0 then 1 else v.capacity_ * 2)).items_.set
         (Reserve v (if v.size_ = 0 then 1 else v.capacity_ * 2)).size_ x⟩ := by
  unfold PushBack
  split
  · rfl
  · next hne => exact absurd heq hne

theorem PushBack_eq_of_not_full {v : SimpleVector α} (x : α) (hne : v.size_ ≠ v.capacity_) :
    PushBack v x = ⟨v.size_ + 1, v.capacity_, v.items_.set v.size_ x⟩ := by
  unfold PushBack
  split
  · next heq => exact absurd heq hne
  · rfl

theorem PushBack_size (v : SimpleVector α) (x : α) :
    (PushBack v x).size_ = v.size_ + 1 := by
  by_cases heq : v.size_ = v.capacity_
  · rw [PushBack_eq_of_full x heq]
    show (Reserve v _).size_ + 1 = v.size_ + 1
    rw [Reserve_size]
  · rw [PushBack_eq_of_not_full x heq]

theorem PushBack_capacity (v : SimpleVector α) (x : α) :
    (PushBack v x).capacity_ =
      if v.size_ = v.capacity_ then (if v.size_ = 0 then 1 else v.capacity_ * 2)
      else v.capacity_ := by
  by_cases heq : v.size_ = v.capacity_
  · rw [PushBack_eq_of_full x heq, if_pos heq]
    show (Reserve v _).capacity_ = _
    rw [Reserve_capacity]
    have := growPolicy_lt v heq.symm
    omega
  · rw [PushBack_eq_of_not_full x heq, if_neg heq]

theorem PushBack_WF {v : SimpleVector α} (x : α) (h : WF v) : WF (PushBack v x) := by
  obtain ⟨h1, h2⟩ := h
  by_cases heq : v.size_ = v.capacity_
  · rw [PushBack_eq_of_full x heq]
    have hcap := growPolicy_lt v heq.symm
    constructor
    · show (Reserve v _).size_ + 1 ≤ (Reserve v _).capacity_
      rw [Reserve_size, Reserve_capacity]
      omega
    · show ((Reserve v _).items_.set (Reserve v _).size_ x).length = (Reserve v _).capacity_
      rw [List.length_set, Reserve_capacity, Reserve_items hcap]
      simp
      omega
  · rw [PushBack_eq_of_not_full x heq]
    constructor
    · show v.size_ + 1 ≤ v.capacity_
      omega
    · show (v.items_.set v.size_ x).length = v.capacity_
      rw [List.length_set]
      exact h2

theorem PushBack_toList {v : SimpleVector α} (x : α) (h : WF v) :
    (PushBack v x).toList = v.toList ++ [x] := by
  obtain ⟨h1, h2⟩ := h
  by_cases heq : v.size_ = v.capacity_
  · rw [PushBack_eq_of_full x heq]
    have hcap := growPolicy_lt v heq.symm
    show ((Reserve v _).items_.set (Reserve v _).size_ x).take ((Reserve v _).size_ + 1)
        = v.toList ++ [x]
    rw [Reserve_size, take_set_succ]
    · have hres : (Reserve v (if v.size_ = 0 then 1 else v.capacity_ * 2)).items_.take v.size_
          = (Reserve v (if v.size_ = 0 then 1 else v.capacity_ * 2)).toList := by
        rw [toList, Reserve_size]
      rw [hres, Reserve_toList ⟨h1, h2⟩]
    · rw [Reserve_items hcap]
      simp
      omega
  · rw [PushBack_eq_of_not_full x heq]
    show (v.items_.set v.size_ x).take (v.size_ + 1) = v.toList ++ [x]
    rw [take_set_succ v.items_ v.size_ x (by omega), toList]

theorem emptyVec_WF : WF (emptyVec : SimpleVector α) := ⟨Nat.le_refl 0, rfl⟩

theorem pushAll_append (l : List α) (x : α) :
    pushAll (l ++ [x]) = PushBack (pushAll l) x := by
  simp [pushAll, List.foldl_append]

theorem pushCap_succ (n : Nat) :
    pushCap (n + 1) =
      if n = pushCap n then (if n = 0 then 1 else pushCap n * 2) else pushCap n := rfl

theorem pushCap_ge (n : Nat) : n ≤ pushCap n := by
  induction n with
  | zero => exact Nat.le_refl 0
  | succ n ih =>
    rw [pushCap_succ]
    split
    · split <;> omega
    · omega

theorem pushCap_mono (n : Nat) : pushCap n ≤ pushCap (n + 1) := by
  have h := pushCap_ge n
  rw [pushCap_succ]
  split
  · next heq => split <;> omega
  · omega

theorem pushCap_pow2 (n : Nat) (h : 1 ≤ n) : ∃ k, pushCap n = 2 ^ k := by
  induction n with
  | zero => omega
  | succ n ih =>
    by_cases h0 : n = 0
    · subst h0
      exact ⟨0, by decide⟩
    · obtain ⟨k, hk⟩ := ih (by omega)
      rw [pushCap_succ, hk]
      split
      · exact ⟨k + 1, by rw [pow_succ]⟩
      · exact ⟨k, rfl⟩

theorem pushAll_spec (l : List α) :
    WF (pushAll l) ∧ (pushAll l).size_ = l.length ∧ (pushAll l).toList = l ∧
      (pushAll l).capacity_ = pushCap l.length := by
  induction l using List.reverseRecOn with
  | nil => exact ⟨emptyVec_WF, rfl, rfl, rfl⟩
  | append_singleton l x ih =>
    obtain ⟨hwf, hsize, hlist, hcap⟩ := ih
    rw [pushAll_append]
    refine ⟨PushBack_WF x hwf, ?_, ?_, ?_⟩
    · rw [PushBack_size, hsize]
      simp
    · rw [PushBack_toList x hwf, hlist]
    · rw [PushBack_capacity, hsize, hcap]
      have hlen : (l ++ [x]).length = l.length + 1 := by simp
      rw [hlen, pushCap_succ]

theorem Insert_size (v : SimpleVector α) (i : Nat) (x : α) :
    (Insert v i x).size_ = v.size_ + 1 := rfl

theorem Insert_capacity (v : SimpleVector α) (i : Nat) (x : α) :
    (Insert v i x).capacity_ =
      if v.size_ = v.capacity_ then (if v.size_ = 0 then 1 else v.capacity_ * 2)
      else v.capacity_ := rfl

theorem Insert_items (v : SimpleVector α) (i : Nat) (x : α) :
    (Insert v i x).items_ =
      v.items_.take i ++ x :: (v.items_.drop i).take (v.size_ - i)
        ++ List.replicate ((Insert v i x).capacity_ - (v.size_ + 1)) default := rfl

theorem Insert_capacity_ge {v : SimpleVector α} (h : WF v) (i : Nat) (x : α) :
    v.size_ + 1 ≤ (Insert v i x).capacity_ := by
  obtain ⟨h1, h2⟩ := h
  rw [Insert_capacity]
  split
  · split <;> omega
  · omega

theorem Insert_WF {v : SimpleVector α} {i : Nat} (x : α) (h : WF v) (hi : i ≤ v.size_) :
    WF (Insert v i x) := by
  have hc := Insert_capacity_ge h i x
  obtain ⟨h1, h2⟩ := h
  constructor
  · rw [Insert_size]
    exact hc
  · rw [Insert_items]
    simp
    omega

theorem Insert_toList {v : SimpleVector α} {i : Nat} (x : α) (h : WF v) (hi : i ≤ v.size_) :
    (Insert v i x).toList = v.toList.take i ++ x :: v.toList.drop i := by
  obtain ⟨h1, h2⟩ := h
  simp only [toList, Insert_items, Insert_size]
  have hAB : (v.items_.take i ++ x :: (v.items_.drop i).take (v.size_ - i)).length
      = v.size_ + 1 := by
    simp
    omega
  rw [List.take_left' hAB]
  rw [List.take_take, Nat.min_eq_left hi, List.drop_take]

theorem Erase_size (v : SimpleVector α) (i : Nat) : (Erase v i).size_ = v.size_ - 1 := rfl

theorem Erase_capacity (v : SimpleVector α) (i : Nat) : (Erase v i).capacity_ = v.capacity_ := rfl

theorem Erase_items (v : SimpleVector α) (i : Nat) :
    (Erase v i).items_ =
      v.items_.take i ++ (v.items_.drop (i + 1)).take (v.size_ - 1 - i)
        ++ v.items_.drop (v.size_ - 1) := rfl

theorem Erase_WF {v : SimpleVector α} {i : Nat} (h : WF v) (hi : i < v.size_) :
    WF (Erase v i) := by
  obtain ⟨h1, h2⟩ := h
  constructor
  · rw [Erase_size, Erase_capacity]
    omega
  · rw [Erase_items, Erase_capacity]
    simp
    omega

theorem Erase_toList {v : SimpleVector α} {i : Nat} (h : WF v) (hi : i < v.size_) :
    (Erase v i).toList = v.toList.take i ++ v.toList.drop (i + 1) := by
  obtain ⟨h1, h2⟩ := h
  simp only [toList, Erase_items, Erase_size]
  have hAB : (v.items_.take i ++ (v.items_.drop (i + 1)).take (v.size_ - 1 - i)).length
      = v.size_ - 1 := by
    simp
    omega
  rw [List.take_left' hAB]
  rw [List.take_take, Nat.min_eq_left (by omega), List.drop_take]
  have hsub : v.size_ - (i + 1) = v.size_ - 1 - i := by omega
  rw [hsub]

theorem Resize_eq_of_eq {v : SimpleVector α} {n : Nat} (h : v.size_ = n) : Resize v n = v := by
  unfold Resize
  rw [if_pos h]

theorem Resize_eq_of_grow_within {v : SimpleVector α} {n : Nat}
    (h1 : n ≤ v.capacity_) (h2 : v.size_ < n) :
    Resize v n =
      ⟨n, v.capacity_,
        v.items_.take v.size_ ++ List.replicate (n - v.size_) default
          ++ v.items_.drop n⟩ := by
  unfold Resize
  rw [if_neg (by omega), if_pos ⟨h1, h2⟩]

theorem Resize_eq_of_grow_beyond {v : SimpleVector α} {n : Nat} (hwf : WF v)
    (h : v.capacity_ < n) :
    Resize v n = { Reserve v (max n (v.capacity_ * 2)) with size_ := n } := by
  obtain ⟨h1, h2⟩ := hwf
  unfold Resize
  rw [if_neg (by omega), if_neg (by omega), if_pos h]

theorem Resize_eq_of_shrink {v : SimpleVector α} {n : Nat} (hwf : WF v)
    (h : n < v.size_) :
    Resize v n = ⟨n, v.capacity_, v.items_⟩ := by
  obtain ⟨h1, h2⟩ := hwf
  unfold Resize
  rw [if_neg (by omega), if_neg (by omega), if_neg (by omega)]

theorem Resize_grow_within_toList {v : SimpleVector α} {n : Nat} (hwf : WF v)
    (h1 : n ≤ v.capacity_) (h2 : v.size_ < n) :
    (Resize v n).toList = v.toList ++ List.replicate (n - v.size_) default := by
  obtain ⟨ha, hb⟩ := hwf
  rw [Resize_eq_of_grow_within h1 h2]
  show (v.items_.take v.size_ ++ List.replicate (n - v.size_) default
      ++ v.items_.drop n).take n = _
  have hAB : (v.items_.take v.size_ ++ List.replicate (n - v.size_) default).length = n := by
    simp
    omega
  rw [List.take_left' hAB, toList]

theorem Resize_grow_beyond_toList {v : SimpleVector α} {n : Nat} (hwf : WF v)
    (h : v.capacity_ < n) :
    (Resize v n).toList = v.toList ++ List.replicate (n - v.size_) default := by
  have hg : v.capacity_ < max n (v.capacity_ * 2) := by omega
  obtain ⟨ha, hb⟩ := hwf
  rw [Resize_eq_of_grow_beyond ⟨ha, hb⟩ h]
  show (Reserve v (max n (v.capacity_ * 2))).items_.take n = _
  rw [Reserve_items hg, List.take_append_eq_append_take]
  have hA : (v.items_.take v.size_).length = v.size_ := by
    simp
    omega
  rw [hA, List.take_of_length_le (by omega), List.take_replicate]
  have hmin : min (n - v.size_) (max n (v.capacity_ * 2) - v.size_) = n - v.size_ := by omega
  rw [hmin, toList]

theorem Resize_WF {v : SimpleVector α} (n : Nat) (h : WF v) : WF (Resize v n) := by
  obtain ⟨h1, h2⟩ := h
  rcases Nat.lt_trichotomy v.size_ n with hlt | heq | hgt
  · by_cases hc : n ≤ v.capacity_
    · rw [Resize_eq_of_grow_within hc hlt]
      constructor
      · exact hc
      · show (v.items_.take v.size_ ++ List.replicate (n - v.size_) default
            ++ v.items_.drop n).length = v.capacity_
        simp
        omega
    · rw [Resize_eq_of_grow_beyond ⟨h1, h2⟩ (by omega)]
      have hres := Reserve_WF (n := max n (v.capacity_ * 2)) ⟨h1, h2⟩
      constructor
      · show n ≤ (Reserve v (max n (v.capacity_ * 2))).capacity_
        rw [Reserve_capacity]
        omega
      · exact hres.2
  · rw [Resize_eq_of_eq heq]
    exact ⟨h1, h2⟩
  · rw [Resize_eq_of_shrink ⟨h1, h2⟩ hgt]
    constructor
    · show n ≤ v.capacity_
      omega
    · exact h2

theorem PopBack_WF {v : SimpleVector α} (h : WF v) : WF (PopBack v) := by
  obtain ⟨h1, h2⟩ := h
  constructor
  · show v.size_ - 1 ≤ v.capacity_
    omega
  · exact h2

theorem Clear_WF {v : SimpleVector α} (h : WF v) : WF (Clear v) :=
  ⟨Nat.zero_le _, h.2⟩

theorem copyCtor_WF {v : SimpleVector α} (h : WF v) : WF (copyCtor v) := by
  obtain ⟨h1, h2⟩ := h
  constructor
  · exact h1
  · show (v.items_.take v.size_ ++ List.replicate (v.capacity_ - v.size_) default).length
        = v.capacity_
    simp
    omega

theorem copyCtor_toList {v : SimpleVector α} (h : WF v) : (copyCtor v).toList = v.toList := by
  obtain ⟨h1, h2⟩ := h
  show (v.items_.take v.size_ ++ List.replicate (v.capacity_ - v.size_) default).take v.size_
      = v.toList
  rw [List.take_append_of_le_length (by simp; omega), List.take_take, Nat.min_self, toList]

theorem Reachable_WF {v : SimpleVector α} (h : Reachable v) : WF v := by
  induction h with
  | emptyVec => exact emptyVec_WF
  | mkFill n value => exact ⟨Nat.le_refl n, by simp [mkFill]⟩
  | mkSize n => exact ⟨Nat.le_refl n, by simp [mkSize, mkFill]⟩
  | mkList l => exact ⟨Nat.le_refl _, rfl⟩
  | mkReserveHint n => exact Reserve_WF emptyVec_WF
  | copyCtor _ ih => exact copyCtor_WF ih
  | pushBack x _ ih => exact PushBack_WF x ih
  | popBack _ _ ih => exact PopBack_WF ih
  | clear _ ih => exact Clear_WF ih
  | reserve n _ ih => exact Reserve_WF ih
  | resize n _ ih => exact Resize_WF n ih
  | insert i x _ hle ih => exact Insert_WF x ih hle
  | erase i _ hlt ih => exact Erase_WF ih hlt

theorem get_toList {v : SimpleVector α} {i : Nat} (hi : i < v.size_) :
    v.toList.getD i default = v.get i := by
  rw [toList, get, List.getD_eq_getElem?_getD, List.getD_eq_getElem?_getD,
    List.getElem?_take_of_lt hi]

theorem toList_getElem {v : SimpleVector α} (h : WF v) {i : Nat} (hi : i < v.size_) :
    v.toList[i]? = some (v.get i) := by
  obtain ⟨h1, h2⟩ := h
  rw [toList, List.getElem?_take_of_lt hi, get, List.getD_eq_getElem?_getD,
    List.getElem?_eq_getElem (show i < v.items_.length by omega)]
  rfl

theorem toList_getElem_none {v : SimpleVector α} {i : Nat} (hi : v.size_ ≤ i) :
    v.toList[i]? = none := by
  rw [toList]
  exact List.getElem?_take_eq_none hi

theorem toList_eq_iff {lhs rhs : SimpleVector α} (hl : WF lhs) (hr : WF rhs) :
    lhs.toList = rhs.toList ↔
      (lhs.size_ = rhs.size_ ∧ ∀ i, i < lhs.size_ → lhs.get i = rhs.get i) := by
  constructor
  · intro h
    have hlen : lhs.size_ = rhs.size_ := by
      have hL := congrArg List.length h
      rw [toList_length hl, toList_length hr] at hL
      exact hL
    refine ⟨hlen, fun i hi => ?_⟩
    rw [← get_toList hi, ← get_toList (show i < rhs.size_ by omega), h]
  · rintro ⟨hlen, hpt⟩
    apply List.ext_getElem?
    intro i
    by_cases hi : i < lhs.size_
    · rw [toList_getElem hl hi, toList_getElem hr (by omega), hpt i hi]
    · rw [toList_getElem_none (by omega), toList_getElem_none (by omega)]

theorem lexCompare_cons_nil [LinearOrder α] (a : α) (as : List α) :
    lexCompare (a :: as) [] = false := rfl

theorem lexCompare_cons_cons [LinearOrder α] (a b : α) (as bs : List α) :
    lexCompare (a :: as) (b :: bs) =
      if a < b then true else if b < a then false else lexCompare as bs := rfl

theorem lexCompare_iff_Lex [LinearOrder α] (as bs : List α) :
    lexCompare as bs = true ↔ List.Lex (· < ·) as bs := by
  induction as generalizing bs with
  | nil =>
    cases bs with
    | nil =>
      simp only [lexCompare]
      constructor
      · intro h
        cases h
      · intro h
        cases h
    | cons b bs =>
      simp only [lexCompare]
      constructor
      · intro _
        exact List.Lex.nil
      · intro _
        trivial
  | cons a as ih =>
    cases bs with
    | nil =>
      rw [lexCompare_cons_nil]
      constructor
      · intro h
        cases h
      · intro h
        cases h
    | cons b bs =>
      rw [lexCompare_cons_cons]
      split
      · next hab =>
        simp only [true_iff]
        exact List.Lex.rel hab
      · next hab =>
        split
        · next hba =>
          constructor
          · intro h
            exact absurd h (by simp)
          · intro hcon
            cases hcon with
            | cons h => exact absurd hba (lt_irrefl _)
            | rel h => exact absurd h hab
        · next hba =>
          have heq : a = b := le_antisymm (not_lt.mp hba) (not_lt.mp hab)
          subst heq
          rw [ih bs]
          exact (List.Lex.cons_iff).symm

end SimpleVector

open SimpleVector

/-- C1: starting from the empty container, after the sequence of `PushBack`
calls for the elements of `l` the size is `l.length`, the present elements
are exactly the pushed values in push order, and the capacity is the value
prescribed by the growth policy — `1` when an append finds `size_ == capacity_`
with size 0, else double — giving the sequence 0, 1, 2, 4, 8, …, which never
shrinks and is always at least the size. -/
theorem c1_pushBack_doubling_growth {α : Type} [Inhabited α] (l : List α) :
    (pushAll l).size_ = l.length ∧
    (pushAll l).toList = l ∧
    (pushAll l).capacity_ = pushCap l.length ∧
    (∀ n : Nat, pushCap (n + 1) =
      if n = pushCap n then (if n = 0 then 1 else pushCap n * 2) else pushCap n) ∧
    (∀ n : Nat, pushCap n ≤ pushCap (n + 1)) ∧
    (∀ n : Nat, n ≤ pushCap n) ∧
    (∀ n : Nat, 1 ≤ n → ∃ k : Nat, pushCap n = 2 ^ k) := by
  obtain ⟨hwf, hsize, hlist, hcap⟩ := pushAll_spec l
  exact ⟨hsize, hlist, hcap, pushCap_succ, pushCap_mono, pushCap_ge, pushCap_pow2⟩

/-- Witness for C1: five pushes give size 5, the pushed elements in order,
and capacity 8 = 2 ^ 3. -/
theorem c1_witness :
    (pushAll ([10, 20, 30, 40, 50] : List Nat)).size_ = 5 ∧
    (pushAll ([10, 20, 30, 40, 50] : List Nat)).toList = [10, 20, 30, 40, 50] ∧
    (pushAll ([10, 20, 30, 40, 50] : List Nat)).capacity_ = 8 ∧
    (∃ k : Nat, pushCap 5 = 2 ^ k) := by
  have h := c1_pushBack_doubling_growth ([10, 20, 30, 40, 50] : List Nat)
  refine ⟨h.1, h.2.1, ?_, h.2.2.2.2.2.2 5 (by decide)⟩
  rw [h.2.2.1]
  decide

/-- C2: for every well-formed container and every index `i ≤ size_`,
`Insert` of `x` at `i` followed by `Erase` at `i` restores the original
element sequence: same size and the same present elements. -/
theorem c2_insert_erase_inverse {α : Type} [Inhabited α] (v : SimpleVector α)
    (i : Nat) (x : α) (hwf : WF v) (hi : i ≤ v.size_) :
    (Erase (Insert v i x) i).size_ = v.size_ ∧
    (Erase (Insert v i x) i).toList = v.toList := by
  have hwf2 := Insert_WF x hwf hi
  have hi2 : i < (Insert v i x).size_ := by
    rw [Insert_size]
    omega
  constructor
  · rw [Erase_size, Insert_size]
    omega
  · rw [Erase_toList hwf2 hi2, Insert_toList x hwf hi]
    have hT : v.toList.length = v.size_ := toList_length hwf
    have hA : (v.toList.take i).length = i := by
      simp
      omega
    rw [List.take_append_of_le_length (by omega), List.take_take, Nat.min_self]
    rw [List.drop_append_eq_append_drop, hA]
    rw [List.drop_eq_nil_of_le (by omega)]
    have h1 : i + 1 - i = 1 := by omega
    rw [h1]
    simp

/-- Witness for C2: inserting 9 at index 1 of [1, 2, 3] and erasing index 1
restores size and elements. -/
theorem c2_witness :
    (Erase (Insert (mkList [(1 : Nat), 2, 3]) 1 9) 1).size_ = (mkList [(1 : Nat), 2, 3]).size_ ∧
    (Erase (Insert (mkList [(1 : Nat), 2, 3]) 1 9) 1).toList = (mkList [(1 : Nat), 2, 3]).toList :=
  c2_insert_erase_inverse (mkList [1, 2, 3]) 1 9 (by decide) (by decide)

/-- C3: `Resize(new_size)` by cases — equal size is a no-op; growth within
capacity default-fills the new slots and keeps capacity; growth beyond
capacity sets capacity to `max(new_size, 2 × capacity)` and default-fills the
new slots; shrinking only decreases `size_`, leaving capacity and the whole
storage block (including the vacated slots) untouched. -/
theorem c3_resize_cases {α : Type} [Inhabited α] (v : SimpleVector α) (n : Nat)
    (hwf : WF v) :
    (n = v.size_ → Resize v n = v) ∧
    (v.size_ < n → n ≤ v.capacity_ →
      (Resize v n).size_ = n ∧ (Resize v n).capacity_ = v.capacity_ ∧
        (Resize v n).toList = v.toList ++ List.replicate (n - v.size_) default) ∧
    (v.capacity_ < n →
      (Resize v n).size_ = n ∧ (Resize v n).capacity_ = max n (v.capacity_ * 2) ∧
        (Resize v n).toList = v.toList ++ List.replicate (n - v.size_) default) ∧
    (n < v.size_ →
      (Resize v n).size_ = n ∧ (Resize v n).capacity_ = v.capacity_ ∧
        (Resize v n).items_ = v.items_ ∧ (Resize v n).toList = v.toList.take n) := by
  obtain ⟨h1, h2⟩ := hwf
  refine ⟨fun h => Resize_eq_of_eq h.symm, fun hs hc => ?_, fun hc => ?_, fun hs => ?_⟩
  · refine ⟨?_, ?_, Resize_grow_within_toList ⟨h1, h2⟩ hc hs⟩
    · rw [Resize_eq_of_grow_within hc hs]
    · rw [Resize_eq_of_grow_within hc hs]
  · refine ⟨?_, ?_, Resize_grow_beyond_toList ⟨h1, h2⟩ hc⟩
    · rw [Resize_eq_of_grow_beyond ⟨h1, h2⟩ hc]
    · rw [Resize_eq_of_grow_beyond ⟨h1, h2⟩ hc]
      show (Reserve v (max n (v.capacity_ * 2))).capacity_ = max n (v.capacity_ * 2)
      rw [Reserve_capacity]
      omega
  · rw [Resize_eq_of_shrink ⟨h1, h2⟩ hs]
    refine ⟨rfl, rfl, rfl, ?_⟩
    show v.items_.take n = (v.items_.take v.size_).take n
    rw [List.take_take, Nat.min_eq_left (by omega)]

/-- Witness for C3: resizing [1, 2, 3] to 5 (beyond capacity 3) gives size 5,
capacity max 5 6 = 6, and elements [1, 2, 3, 0, 0]. -/
theorem c3_witness :
    (Resize (mkList [(1 : Nat), 2, 3]) 5).size_ = 5 ∧
    (Resize (mkList [(1 : Nat), 2, 3]) 5).capacity_ =
      max 5 ((mkList [(1 : Nat), 2, 3]).capacity_ * 2) ∧
    (Resize (mkList [(1 : Nat), 2, 3]) 5).toList =
      (mkList [(1 : Nat), 2, 3]).toList
        ++ List.replicate (5 - (mkList [(1 : Nat), 2, 3]).size_) default :=
  (c3_resize_cases (mkList [1, 2, 3]) 5 (by decide)).2.2.1 (by decide)

/-- C4 counterexample: `PushBack 5` on the empty container followed by
`PopBack` reaches a state with `size_ = 0` and `capacity_ = 1` whose slot at
index 0 — an index in `[size_, capacity_)` — still holds the user value 5
rather than a default-constructed value, so invariant I2 as stated is not
preserved by every public operation. -/
theorem c4_counterexample :
    (PopBack (PushBack (emptyVec : SimpleVector Nat) 5)).size_ = 0 ∧
    (PopBack (PushBack (emptyVec : SimpleVector Nat) 5)).capacity_ = 1 ∧
    (PopBack (PushBack (emptyVec : SimpleVector Nat) 5)).items_ = [5] ∧
    (5 : Nat) ≠ default := by
  decide

/-- C4 (amended): in every reachable state, `size_ ≤ capacity_` and the
storage block holds exactly `capacity_` slots, and the present elements are
exactly those at indices `[0, size_)`; slots in `[size_, capacity_)` may
however retain stale user data after a shrinking operation. -/
theorem c4_reachable_invariant {α : Type} [Inhabited α] (v : SimpleVector α)
    (h : Reachable v) :
    (v.size_ ≤ v.capacity_ ∧ v.items_.length = v.capacity_) ∧
    v.toList.length = v.size_ :=
  ⟨Reachable_WF h, toList_length (Reachable_WF h)⟩

/-- Witness for C4 (amended) on the reachable state `PushBack emptyVec 5`. -/
theorem c4_witness :
    ((PushBack (emptyVec : SimpleVector Nat) 5).size_ ≤
        (PushBack (emptyVec : SimpleVector Nat) 5).capacity_ ∧
      (PushBack (emptyVec : SimpleVector Nat) 5).items_.length =
        (PushBack (emptyVec : SimpleVector Nat) 5).capacity_) ∧
    (PushBack (emptyVec : SimpleVector Nat) 5).toList.length =
      (PushBack (emptyVec : SimpleVector Nat) 5).size_ :=
  c4_reachable_invariant _ (Reachable.pushBack 5 Reachable.emptyVec)

/-- C5: `At(index)` raises the out-of-range error exactly when
`index ≥ size_` and otherwise returns the element at `index`; in particular
`At(size_)` always raises and `At(size_ - 1)` on a non-empty container never
raises. -/
theorem c5_at_checked_access {α : Type} [Inhabited α] (v : SimpleVector α)
    (index : Nat) :
    (v.At index = Except.error "Out of range" ↔ v.size_ ≤ index) ∧
    (index < v.size_ → v.At index = Except.ok (v.get index)) ∧
    v.At v.size_ = Except.error "Out of range" ∧
    (0 < v.size_ → v.At (v.size_ - 1) = Except.ok (v.get (v.size_ - 1))) := by
  refine ⟨⟨?_, ?_⟩, ?_, ?_, ?_⟩
  · intro h
    by_cases hge : v.size_ ≤ index
    · exact hge
    · unfold At at h
      rw [if_neg (by omega)] at h
      exact absurd h (by simp)
  · intro hge
    unfold At
    rw [if_pos hge]
  · intro hlt
    unfold At
    rw [if_neg (by omega)]
  · unfold At
    rw [if_pos (Nat.le_refl _)]
  · intro hpos
    unfold At
    rw [if_neg (by omega)]

/-- Witness for C5 on the one-element container [7]: `At 1` raises,
`At 0` returns the element. -/
theorem c5_witness :
    (mkList [(7 : Nat)]).At 1 = Except.error "Out of range" ∧
    (mkList [(7 : Nat)]).At 0 = Except.ok ((mkList [(7 : Nat)]).get 0) :=
  ⟨(c5_at_checked_access (mkList [(7 : Nat)]) 1).1.mpr (by decide),
   (c5_at_checked_access (mkList [(7 : Nat)]) 0).2.1 (by decide)⟩

/-- C6: `Reserve(new_capacity)` with `new_capacity ≤ capacity_` is a no-op;
with `new_capacity > capacity_` the capacity becomes exactly `new_capacity`,
the size and the present elements are unchanged, and the slots
`[size_, new_capacity)` are default-valued. -/
theorem c6_reserve_spec {α : Type} [Inhabited α] (v : SimpleVector α) (k : Nat)
    (hwf : WF v) :
    (k ≤ v.capacity_ → Reserve v k = v) ∧
    (v.capacity_ < k →
      (Reserve v k).capacity_ = k ∧ (Reserve v k).size_ = v.size_ ∧
        (Reserve v k).toList = v.toList ∧
        (Reserve v k).items_.drop v.size_ = List.replicate (k - v.size_) default) := by
  refine ⟨Reserve_eq_self,
    fun hk => ⟨?_, Reserve_size v k, Reserve_toList hwf, Reserve_drop hwf hk⟩⟩
  rw [Reserve_capacity]
  omega

/-- Witness for C6 on [1, 2]: `Reserve 1` is a no-op, `Reserve 5` grows the
capacity to exactly 5 keeping the elements. -/
theorem c6_witness :
    Reserve (mkList [(1 : Nat), 2]) 1 = mkList [(1 : Nat), 2] ∧
    (Reserve (mkList [(1 : Nat), 2]) 5).capacity_ = 5 ∧
    (Reserve (mkList [(1 : Nat), 2]) 5).toList = (mkList [(1 : Nat), 2]).toList :=
  ⟨(c6_reserve_spec (mkList [1, 2]) 1 (by decide)).1 (by decide),
   ((c6_reserve_spec (mkList [1, 2]) 5 (by decide)).2 (by decide)).1,
   ((c6_reserve_spec (mkList [1, 2]) 5 (by decide)).2 (by decide)).2.2.1⟩

/-- C7 counterexample: move-assigning the source `{2, 3}` into a target
holding `{1}` leaves the moved-from source with the target's old contents —
size 1 and capacity 1, not size 0 and capacity 0: move assignment swaps the
two containers, it does not reset the source. -/
theorem c7_counterexample :
    ¬ ((assignMove (mkList [(1 : Nat)]) (mkList [(2 : Nat), 3]) false).2.size_ = 0 ∧
       (assignMove (mkList [(1 : Nat)]) (mkList [(2 : Nat), 3]) false).2.capacity_ = 0) := by
  decide

/-- C7 (amended): move construction leaves the moved-from source empty
(size 0, capacity 0, no storage) and the target holds exactly the source's
prior contents; move assignment between distinct objects exchanges the two
containers wholesale — the target receives the source's prior state and the
source receives the target's prior state (so the source ends empty only when
the target was empty); self move-assignment is a no-op; neither operation
fails. -/
theorem c7_move_semantics {α : Type} [Inhabited α] (a b : SimpleVector α) :
    (moveCtor a).1 = a ∧
    (moveCtor a).2.size_ = 0 ∧
    (moveCtor a).2.capacity_ = 0 ∧
    (moveCtor a).2.items_ = [] ∧
    assignMove a b false = (b, a) ∧
    assignMove a a true = (a, a) :=
  ⟨rfl, rfl, rfl, rfl, rfl, rfl⟩

/-- C8: copy construction yields a container with the source's size, the
source's capacity and equal present elements; copy assignment between
distinct objects equals copy-construct-then-swap; self copy-assignment is a
no-op. (Mutation isolation of the deep copy is inherent in the
value-semantics embedding: the copy shares no state with the original.) -/
theorem c8_copy_deep {α : Type} [Inhabited α] (v w : SimpleVector α) (hwf : WF v) :
    (copyCtor v).size_ = v.size_ ∧
    (copyCtor v).capacity_ = v.capacity_ ∧
    (copyCtor v).toList = v.toList ∧
    assignCopy w v false = copyCtor v ∧
    assignCopy v v true = v :=
  ⟨rfl, rfl, copyCtor_toList hwf, rfl, rfl⟩

/-- Witness for C8 on the container [4, 5]. -/
theorem c8_witness :
    (copyCtor (mkList [(4 : Nat), 5])).size_ = (mkList [(4 : Nat), 5]).size_ ∧
    (copyCtor (mkList [(4 : Nat), 5])).capacity_ = (mkList [(4 : Nat), 5]).capacity_ ∧
    (copyCtor (mkList [(4 : Nat), 5])).toList = (mkList [(4 : Nat), 5]).toList ∧
    assignCopy (mkList [(9 : Nat)]) (mkList [(4 : Nat), 5]) false
      = copyCtor (mkList [(4 : Nat), 5]) ∧
    assignCopy (mkList [(4 : Nat), 5]) (mkList [(4 : Nat), 5]) true
      = mkList [(4 : Nat), 5] :=
  c8_copy_deep (mkList [4, 5]) (mkList [9]) (by decide)

/-- C9: `operator==` is true iff the sizes agree and the elements agree at
every index in `[0, size)`; `operator<` is the lexicographic order by
element-wise `<` on the present elements; `!=`, `<=`, `>`, `>=` are the
standard derivations from `==` and `<`; equality is reflexive and symmetric;
and `{1,2,3} < {1,2,4}` and `{1,2} < {1,2,3}`. -/
theorem c9_comparison_operators {α : Type} [Inhabited α] [LinearOrder α] :
    (∀ lhs rhs : SimpleVector α, WF lhs → WF rhs →
      (operatorEq lhs rhs = true ↔
        lhs.size_ = rhs.size_ ∧ ∀ i, i < lhs.size_ → lhs.get i = rhs.get i)) ∧
    (∀ lhs rhs : SimpleVector α,
      (operatorLt lhs rhs = true ↔ List.Lex (· < ·) lhs.toList rhs.toList)) ∧
    (∀ lhs rhs : SimpleVector α,
      operatorNe lhs rhs = !(operatorEq lhs rhs) ∧
      operatorLe lhs rhs = !(operatorLt rhs lhs) ∧
      operatorGt lhs rhs = operatorLt rhs lhs ∧
      operatorGe lhs rhs = !(operatorLt lhs rhs)) ∧
    (∀ u : SimpleVector α, operatorEq u u = true) ∧
    (∀ a b : SimpleVector α, operatorEq a b = operatorEq b a) ∧
    operatorLt (mkList [(1 : Nat), 2, 3]) (mkList [(1 : Nat), 2, 4]) = true ∧
    operatorLt (mkList [(1 : Nat), 2]) (mkList [(1 : Nat), 2, 3]) = true := by
  refine ⟨?_, ?_, ?_, ?_, ?_, by decide, by decide⟩
  · intro lhs rhs hl hr
    rw [operatorEq, decide_eq_true_iff]
    exact toList_eq_iff hl hr
  · intro lhs rhs
    exact lexCompare_iff_Lex lhs.toList rhs.toList
  · intro lhs rhs
    exact ⟨rfl, rfl, rfl, rfl⟩
  · intro u
    simp [operatorEq]
  · intro a b
    by_cases h : a.toList = b.toList
    · simp [operatorEq, h]
    · simp [operatorEq, h, Ne.symm h]

/-- Witness for C9: equality on equal containers and the lexicographic
prefix example, concretely. -/
theorem c9_witness :
    operatorEq (mkList [(1 : Nat), 2]) (mkList [(1 : Nat), 2]) = true ∧
    operatorLt (mkList [(1 : Nat), 2]) (mkList [(1 : Nat), 2, 3]) = true :=
  ⟨((c9_comparison_operators (α := Nat)).1 (mkList [1, 2]) (mkList [1, 2])
      (by decide) (by decide)).mpr (by decide),
   (c9_comparison_operators (α := Nat)).2.2.2.2.2.2⟩

/-- C10: `PopBack` and `Erase` leave the capacity and the storage block
length unchanged (no shrink, no reallocation); `Erase` at `i` keeps every
element at an index below `i` and shifts the elements above `i` down one
position. -/
theorem c10_pop_erase_frame {α : Type} [Inhabited α] (v : SimpleVector α) (i : Nat)
    (hwf : WF v) (hpos : 0 < v.size_) (hi : i < v.size_) :
    (PopBack v).capacity_ = v.capacity_ ∧
    (PopBack v).items_ = v.items_ ∧
    (Erase v i).capacity_ = v.capacity_ ∧
    (Erase v i).items_.length = v.items_.length ∧
    (Erase v i).toList = v.toList.take i ++ v.toList.drop (i + 1) ∧
    (∀ j, j < i → (Erase v i).get j = v.get j) ∧
    (∀ j, i ≤ j → j < v.size_ - 1 → (Erase v i).get j = v.get (j + 1)) := by
  have hwfE := Erase_WF hwf hi
  have hT := Erase_toList hwf hi
  have hTlen := toList_length hwf
  obtain ⟨h1, h2⟩ := hwf
  refine ⟨rfl, rfl, rfl, ?_, hT, ?_, ?_⟩
  · rw [hwfE.2, Erase_capacity]
    omega
  · intro j hj
    have hjs : j < (Erase v i).size_ := by
      rw [Erase_size]
      omega
    rw [← get_toList hjs, ← get_toList (show j < v.size_ by omega), hT]
    rw [List.getD_eq_getElem?_getD, List.getD_eq_getElem?_getD]
    rw [List.getElem?_append_left (by simp; omega), List.getElem?_take_of_lt hj]
  · intro j hij hjtop
    have hjs : j < (Erase v i).size_ := by
      rw [Erase_size]
      omega
    rw [← get_toList hjs, ← get_toList (show j + 1 < v.size_ by omega), hT]
    rw [List.getD_eq_getElem?_getD, List.getD_eq_getElem?_getD]
    have hlenA : (v.toList.take i).length = i := by
      simp
      omega
    rw [List.getElem?_append_right (by omega), hlenA, List.getElem?_drop]
    have hidx : i + 1 + (j - i) = j + 1 := by omega
    rw [hidx]

/-- Witness for C10 on [1, 2, 3] erasing index 1: capacity kept, element 0
kept, element 2 shifted down. -/
theorem c10_witness :
    (PopBack (mkList [(1 : Nat), 2, 3])).capacity_ = (mkList [(1 : Nat), 2, 3]).capacity_ ∧
    (Erase (mkList [(1 : Nat), 2, 3]) 1).capacity_ = (mkList [(1 : Nat), 2, 3]).capacity_ ∧
    (Erase (mkList [(1 : Nat), 2, 3]) 1).get 0 = (mkList [(1 : Nat), 2, 3]).get 0 ∧
    (Erase (mkList [(1 : Nat), 2, 3]) 1).get 1 = (mkList [(1 : Nat), 2, 3]).get 2 := by
  refine ⟨(c10_pop_erase_frame (mkList [1, 2, 3]) 1 (by decide) (by decide) (by decide)).1,
    (c10_pop_erase_frame (mkList [1, 2, 3]) 1 (by decide) (by decide) (by decide)).2.2.1,
    (c10_pop_erase_frame (mkList [1, 2, 3]) 1 (by decide) (by decide)
      (by decide)).2.2.2.2.2.1 0 (by decide),
    (c10_pop_erase_frame (mkList [1, 2, 3]) 1 (by decide) (by decide)
      (by decide)).2.2.2.2.2.2 1 (by decide) (by decide)⟩
